import Mathlib

/-!
Verification of the cube-sphere raster engine (`src/raster/raster.py`).

The script assembles a 6-tile cubed-sphere scalar field, optionally
block-averages it, and renders it either as a flattened 3x4 "cross"
atlas or as a list of threshold-filtered polygons.  Field values are
modelled as rationals; the `+inf` no-data sentinel of the cross atlas is
`⊤ : WithTop ℚ`; fallible numpy indexing and numpy slice assignment are
modelled with `Option`.
-/

namespace Raster

/-- Number of tiles (`ntile = 6` in the script). -/
def ntile : ℕ := 6

/-- Model of np.rot90(m, 1) (90 degrees counter-clockwise) of a matrix with
`cols` columns: entry `(i, j)` of the result is `m[j, cols-1-i]`. -/
def rot90k1 (cols : ℕ) (m : ℕ → ℕ → ℚ) : ℕ → ℕ → ℚ :=
  fun i j => m j (cols - 1 - i)

/-- Model of np.rot90(m, 3) (270 degrees counter-clockwise) of a matrix with
`rows` rows: entry `(i, j)` of the result is `m[rows-1-j, i]`. -/
def rot90k3 (rows : ℕ) (m : ℕ → ℕ → ℚ) : ℕ → ℕ → ℚ :=
  fun i j => m (rows - 1 - j) i

/-- Row count of the cross atlas: `nxc = 3*nx`. -/
def nxc (nx : ℕ) : ℕ := 3 * nx

/-- Column count of the cross atlas: `nyc = 4*ny`. -/
def nyc (ny : ℕ) : ℕ := 4 * ny

/-- One numpy slice assignment
`a[r0:r1, c0:c1] = src` on a `WithTop ℚ` atlas: inside the rectangle the
source value is written (as a finite value), outside the previous
content is kept. -/
def writeBlock (r0 r1 c0 c1 : ℕ) (src : ℕ → ℕ → ℚ)
    (a : ℕ → ℕ → WithTop ℚ) : ℕ → ℕ → WithTop ℚ :=
  fun r c =>
    if r0 ≤ r ∧ r < r1 ∧ c0 ≤ c ∧ c < c1 then
      ((src (r - r0) (c - c0) : ℚ) : WithTop ℚ)
    else a r c

/-- The cross branch of the script:
`fld_cross = np.zeros((nxc,nyc)); fld_cross[:,:] = np.inf` followed by
the six slice assignments, in source order (tile 0 first, tile 5 last,
later assignments outermost). -/
def fld_cross (nx ny : ℕ) (fld : ℕ → ℕ → ℕ → ℚ) : ℕ → ℕ → WithTop ℚ :=
  writeBlock (0*nx) (1*nx) (1*ny) (2*ny) (fld 5)
    (writeBlock (1*nx) (2*nx) (0*ny) (1*ny) (rot90k1 nx (fld 4))
      (writeBlock (1*nx) (2*nx) (3*ny) (4*ny) (rot90k1 nx (fld 3))
        (writeBlock (2*nx) (3*nx) (1*ny) (2*ny) (rot90k3 ny (fld 2))
          (writeBlock (1*nx) (2*nx) (2*ny) (3*ny) (fld 1)
            (writeBlock (1*nx) (2*nx) (1*ny) (2*ny) (fld 0)
              (fun _ _ => (⊤ : WithTop ℚ)))))))

/-- Destination sub-block `(r0, r1, c0, c1)` of each tile in the cross
atlas, read off the six slice assignments. -/
def blockBounds (nx ny : ℕ) : ℕ → ℕ × ℕ × ℕ × ℕ
  | 0 => (1*nx, 2*nx, 1*ny, 2*ny)
  | 1 => (1*nx, 2*nx, 2*ny, 3*ny)
  | 2 => (2*nx, 3*nx, 1*ny, 2*ny)
  | 3 => (1*nx, 2*nx, 3*ny, 4*ny)
  | 4 => (1*nx, 2*nx, 0*ny, 1*ny)
  | _ => (0*nx, 1*nx, 1*ny, 2*ny)

/-- Membership of atlas cell `(r, c)` in tile `t`'s destination
sub-block. -/
def inBlock (nx ny t r c : ℕ) : Prop :=
  (blockBounds nx ny t).1 ≤ r ∧ r < (blockBounds nx ny t).2.1 ∧
    (blockBounds nx ny t).2.2.1 ≤ c ∧ c < (blockBounds nx ny t).2.2.2

instance (nx ny t r c : ℕ) : Decidable (inBlock nx ny t r c) := by
  unfold inBlock; exact inferInstance

/-- The cross branch in the context of the full argument list: the
branch reads neither `average` nor `threshold`. -/
def buildCross (nx ny : ℕ) (average : ℕ) (threshold : ℚ)
    (fld : ℕ → ℕ → ℕ → ℚ) : ℕ → ℕ → WithTop ℚ :=
  fld_cross nx ny fld

/-- Python `range(0, n, a)` for step `a ≥ 1`: the starts of the
averaging blocks along one tile axis. -/
def blockStarts (n a : ℕ) : List ℕ := List.range' 0 ((n + a - 1) / a) a

/-- The value the reduction step attaches to the averaged cell with
block start `(iy, ix)`, as the code computes it: the inner loops are
`for iya in range(average): for ixa in range(average):
value += fld[itile, iy+ixa, ix+ixa]` (note the row offset `ixa`), and
the result is scaled by `normavg = 1.0/average**2`. -/
def cellValue (fld : ℕ → ℕ → ℚ) (a iy ix : ℕ) : ℚ :=
  ((List.range a).foldl
      (fun v _iya =>
        (List.range a).foldl (fun v2 ixa => v2 + fld (iy + ixa) (ix + ixa)) v)
      0)
    * (1 / (a : ℚ) ^ 2)

/-- Stated from the spec, for comparison with `cellValue`: the
arithmetic mean of all `average²` input cells of the block with start
`(iy, ix)`. -/
def blockMeanSpec (fld : ℕ → ℕ → ℚ) (a iy ix : ℕ) : ℚ :=
  (∑ iya ∈ Finset.range a, ∑ ixa ∈ Finset.range a, fld (iy + iya) (ix + ixa))
    / ((a : ℚ) ^ 2)

/-- One emitted polygon: the loop indices identifying the averaged cell
(tile, block start), the cell's value, and the list `xy` of the four
vertex coordinates in the code's winding order. -/
structure Polygon where
  tile : ℕ
  iy : ℕ
  ix : ℕ
  value : ℚ
  xy : List (ℚ × ℚ)
deriving DecidableEq

/-- The polygon the code builds for tile `it`, block start `(iy, ix)`
and value `v`: vertices `(iy,ix)`, `(iy,ix+a)`, `(iy+a,ix+a)`,
`(iy+a,ix)` of the vertex grid, in that winding order. -/
def polyOf (vlons vlats : ℕ → ℕ → ℕ → ℚ) (a : ℕ) (v : ℚ)
    (it iy ix : ℕ) : Polygon :=
  ⟨it, iy, ix, v,
    [(vlons it iy ix, vlats it iy ix),
     (vlons it iy (ix + a), vlats it iy (ix + a)),
     (vlons it (iy + a) (ix + a), vlats it (iy + a) (ix + a)),
     (vlons it (iy + a) ix, vlats it (iy + a) ix)]⟩

/-- The polygon branch of the script: iterate tiles `0..5`, block starts
`iy ∈ range(0, ny, a)`, `ix ∈ range(0, nx, a)`; compute the averaged
value; emit a polygon exactly when `abs(value) >= threshold`. -/
def buildPolygons (ny nx a : ℕ) (threshold : ℚ)
    (fld vlons vlats : ℕ → ℕ → ℕ → ℚ) : List Polygon :=
  (List.range ntile).flatMap fun it =>
    (blockStarts ny a).flatMap fun iy =>
      (blockStarts nx a).filterMap fun ix =>
        if threshold ≤ |cellValue (fld it) a iy ix| then
          some (polyOf vlons vlats a (cellValue (fld it) a iy ix) it iy ix)
        else none

/-- Bounds-checked numpy scalar read `fld[i, j]` on a `(ny, nx)` tile:
`none` models the `IndexError` numpy raises on an out-of-range index. -/
def readCell (ny nx : ℕ) (fld : ℕ → ℕ → ℚ) (i j : ℕ) : Option ℚ :=
  if i < ny ∧ j < nx then some (fld i j) else none

/-- One step of the inner accumulation loop
`value += fld[itile, iy+ixa, ix+ixa]` with a bounds-checked read. -/
def innerStep (ny nx : ℕ) (fld : ℕ → ℕ → ℚ) (iy ix : ℕ)
    (acc : Option ℚ) (ixa : ℕ) : Option ℚ :=
  acc.bind fun s =>
    (readCell ny nx fld (iy + ixa) (ix + ixa)).map fun v => s + v

/-- The reduction-step value with numpy's bounds-checked reads: the two
accumulation loops of the code, where an out-of-range read aborts the
computation (`none`). -/
def cellValueChecked (ny nx : ℕ) (fld : ℕ → ℕ → ℚ) (a iy ix : ℕ) :
    Option ℚ :=
  ((List.range a).foldl
      (fun acc _iya => (List.range a).foldl (innerStep ny nx fld iy ix) acc)
      (some 0)).map fun s => s * (1 / (a : ℚ) ^ 2)

/-- Model of np.max on a flattened list of values (the script only applies it
to non-empty fields; the `[]` case is arbitrary). -/
def npMax : List ℚ → ℚ
  | [] => 0
  | x :: xs => xs.foldl max x

/-- Model of np.min on a flattened list of values (the script only applies it
to non-empty fields; the `[]` case is arbitrary). -/
def npMin : List ℚ → ℚ
  | [] => 0
  | x :: xs => xs.foldl min x

/-- The flattened list of all values of the `(ntile, ny, nx)` field. -/
def fieldVals (ny nx : ℕ) (fld : ℕ → ℕ → ℕ → ℚ) : List ℚ :=
  (List.range ntile).flatMap fun t =>
    (List.range ny).flatMap fun i =>
      (List.range nx).map fun j => fld t i j

/-- The min/max computation of the script:
`centered` gives `vmax = np.max(np.abs(fld)); vmin = -vmax`, otherwise
`vmin = np.min(fld); vmax = np.max(fld)`. -/
def computeRange (centered : Bool) (vals : List ℚ) : ℚ × ℚ :=
  if centered then
    (-(npMax (vals.map fun v => |v|)), npMax (vals.map fun v => |v|))
  else (npMin vals, npMax vals)

/-- A 2x2 input block, `[[0,1],[0,0]]` extended by zeros, on which the
code's reduction differs from the block mean. -/
def bugBlock : ℕ → ℕ → ℚ := fun i j => if i = 0 ∧ j = 1 then 1 else 0

/-- The all-zero field / vertex grid used by concrete witnesses. -/
def zeroField : ℕ → ℕ → ℕ → ℚ := fun _ _ _ => 0

/-- One tile's 2D slice `fdata[variable][0, level-1, :, :]`: its shape
and its contents. -/
structure Slice where
  rows : ℕ
  cols : ℕ
  data : ℕ → ℕ → ℚ

/-- numpy broadcast compatibility of a 2D slice with an assignment
target of shape `(ny, nx)`: each dimension must match or be 1. -/
def compatSlice (ny nx : ℕ) (s : Slice) : Prop :=
  (s.rows = ny ∨ s.rows = 1) ∧ (s.cols = nx ∨ s.cols = 1)

instance (ny nx : ℕ) (s : Slice) : Decidable (compatSlice ny nx s) := by
  unfold compatSlice
  exact inferInstance

/-- The slice's contents broadcast over a `(ny, nx)` target: a dimension
of size 1 is repeated. -/
def bcastData (s : Slice) : ℕ → ℕ → ℚ :=
  fun i j => s.data (if s.rows = 1 then 0 else i) (if s.cols = 1 then 0 else j)

/-- numpy assignment `fld[itile,:,:] = fld_tmp` into a `(ny, nx)`
target: raises (`none`) unless the slice broadcasts to the target
shape. -/
def assignTile (ny nx : ℕ) (s : Slice) : Option (ℕ → ℕ → ℚ) :=
  if compatSlice ny nx s then some (bcastData s) else none

/-- numpy statement `fld[itile,:,:] = fld[itile,:,:] - fld_tmp`: raises
(`none`) unless the baseline slice broadcasts to the tile's shape. -/
def subTile (ny nx : ℕ) (cur : ℕ → ℕ → ℚ) (s : Slice) :
    Option (ℕ → ℕ → ℚ) :=
  if compatSlice ny nx s then
    some (fun i j => cur i j - bcastData s i j)
  else none

/-- The per-tile read loop after `n` tiles: the field starts as
`np.zeros((ntile, ny, nx))` and tile `t`'s slice is copied in at step
`t`; the first failing assignment aborts the loop. -/
def assembleUpTo (ny nx : ℕ) (src : ℕ → Slice) :
    ℕ → Option (ℕ → ℕ → ℕ → ℚ)
  | 0 => some fun _ _ _ => 0
  | t + 1 =>
    (assembleUpTo ny nx src t).bind fun fld =>
      (assignTile ny nx (src t)).map fun tdata =>
        fun u i j => if u = t then tdata i j else fld u i j

/-- Per-tile (6 separate sources) assembly: the target shape `(ny, nx)`
is the shape of tile 0's slice, then each tile's slice is assigned. -/
def assemble (src : ℕ → Slice) : Option (ℕ → ℕ → ℕ → ℚ) :=
  assembleUpTo (src 0).rows (src 0).cols src ntile

/-- The baseline loop after `n` tiles: tile `t` is replaced by
`fld[t,:,:] - fld_tmp` at step `t`; the first failing subtraction
aborts the loop. -/
def applyBaseUpTo (ny nx : ℕ) (bsrc : ℕ → Slice)
    (fld0 : ℕ → ℕ → ℕ → ℚ) : ℕ → Option (ℕ → ℕ → ℕ → ℚ)
  | 0 => some fld0
  | t + 1 =>
    (applyBaseUpTo ny nx bsrc fld0 t).bind fun fld =>
      (subTile ny nx (fld t) (bsrc t)).map fun tdata =>
        fun u i j => if u = t then tdata i j else fld u i j

/-- Assembly followed by the optional baseline difference. -/
def assembleWithBase (src bsrc : ℕ → Slice) : Option (ℕ → ℕ → ℕ → ℚ) :=
  (assemble src).bind fun fld =>
    applyBaseUpTo (src 0).rows (src 0).cols bsrc fld ntile

/-- Six per-tile sources where tile 1's slice has shape `(1, 2)` while
tile 0's has shape `(2, 2)`. -/
def mismatchSrc : ℕ → Slice :=
  fun t => if t = 1 then ⟨1, 2, fun _ _ => 0⟩ else ⟨2, 2, fun _ _ => 0⟩

end Raster

namespace Raster

/-- Claim C10: the six cross-atlas destination sub-blocks are pairwise
disjoint: no atlas cell lies in two distinct tiles' destination
sub-blocks, so every cell is written by at most one tile placement and
no placed value is overwritten by a later placement. -/
theorem cross_blocks_disjoint (nx ny t₁ t₂ r c : ℕ)
    (h₁ : t₁ < 6) (h₂ : t₂ < 6) (hne : t₁ ≠ t₂) :
    ¬ (inBlock nx ny t₁ r c ∧ inBlock nx ny t₂ r c) := by
  have e₁ : t₁ = 0 ∨ t₁ = 1 ∨ t₁ = 2 ∨ t₁ = 3 ∨ t₁ = 4 ∨ t₁ = 5 := by omega
  have e₂ : t₂ = 0 ∨ t₂ = 1 ∨ t₂ = 2 ∨ t₂ = 3 ∨ t₂ = 4 ∨ t₂ = 5 := by omega
  rcases e₁ with h | h | h | h | h | h <;> subst h <;>
    rcases e₂ with h | h | h | h | h | h <;> subst h <;>
      simp only [inBlock, blockBounds] at * <;> omega

/-- Witness for `cross_blocks_disjoint` at tiles 0 and 1, `nx = ny = 2`,
cell `(2, 2)`. -/
theorem cross_blocks_disjoint_witness :
    (0 : ℕ) < 6 ∧ (1 : ℕ) < 6 ∧ (0 : ℕ) ≠ 1 ∧
      ¬ (inBlock 2 2 0 2 2 ∧ inBlock 2 2 1 2 2) :=
  ⟨by decide, by decide, by decide,
    cross_blocks_disjoint 2 2 0 1 2 2 (by decide) (by decide) (by decide)⟩

/-- The concrete 2x2 matrix `[[1,2],[3,4]]` used by the spec's rotation
check. -/
def tile2Example : ℕ → ℕ → ℚ :=
  fun i j => if i = 0 then (if j = 0 then 1 else 2) else (if j = 0 then 3 else 4)

/-- Claim C5: for an un-averaged field of per-tile shape `(ny, nx)` with
`ny = nx`, the cross atlas has shape `(3*nx, 4*ny)`, cell `(nx, ny)`
equals tile-0 cell `(0,0)`, cell `(2nx-1, 3ny-1)` equals tile-1 cell
`(nx-1, ny-1)`, and every cell outside the six placed sub-blocks equals
the `+inf` no-data sentinel the atlas was initialized to. -/
theorem cross_shape_and_placement (nx ny : ℕ) (fld : ℕ → ℕ → ℕ → ℚ)
    (hsq : ny = nx) (hpos : 0 < nx) :
    nxc nx = 3 * nx ∧ nyc ny = 4 * ny ∧
    fld_cross nx ny fld nx ny = ((fld 0 0 0 : ℚ) : WithTop ℚ) ∧
    fld_cross nx ny fld (2*nx - 1) (3*ny - 1) =
      ((fld 1 (nx - 1) (ny - 1) : ℚ) : WithTop ℚ) ∧
    ∀ r c, r < nxc nx → c < nyc ny →
      (∀ t, t < 6 → ¬ inBlock nx ny t r c) →
      fld_cross nx ny fld r c = ⊤ := by
  have hy : 0 < ny := hsq ▸ hpos
  refine ⟨rfl, rfl, ?_, ?_, ?_⟩
  · simp only [fld_cross, writeBlock]
    rw [if_neg (by omega), if_neg (by omega), if_neg (by omega),
      if_neg (by omega), if_neg (by omega), if_pos (by omega)]
    simp [Nat.sub_self]
  · simp only [fld_cross, writeBlock]
    rw [if_neg (by omega), if_neg (by omega), if_neg (by omega),
      if_neg (by omega), if_pos (by omega)]
    have e1 : 2*nx - 1 - 1*nx = nx - 1 := by omega
    have e2 : 3*ny - 1 - 2*ny = ny - 1 := by omega
    rw [e1, e2]
  · intro r c _ _ hout
    simp only [fld_cross, writeBlock]
    split_ifs with h5 h4 h3 h2 h1 h0
    · exact absurd h5 (hout 5 (by omega))
    · exact absurd h4 (hout 4 (by omega))
    · exact absurd h3 (hout 3 (by omega))
    · exact absurd h2 (hout 2 (by omega))
    · exact absurd h1 (hout 1 (by omega))
    · exact absurd h0 (hout 0 (by omega))
    · rfl

/-- Witness for `cross_shape_and_placement` at `nx = ny = 2` and the
field whose value at tile `t`, cell `(i,j)` is `t + i + j`. -/
theorem cross_shape_and_placement_witness :
    (2 : ℕ) = 2 ∧ (0 : ℕ) < 2 ∧
    (nxc 2 = 3 * 2 ∧ nyc 2 = 4 * 2 ∧
      fld_cross 2 2 (fun t i j => (t + i + j : ℚ)) 2 2 = ((0 : ℚ) : WithTop ℚ) ∧
      fld_cross 2 2 (fun t i j => (t + i + j : ℚ)) (2*2 - 1) (3*2 - 1) =
        ((1 + (2 - 1 : ℕ) + (2 - 1 : ℕ) : ℚ) : WithTop ℚ) ∧
      ∀ r c, r < nxc 2 → c < nyc 2 →
        (∀ t, t < 6 → ¬ inBlock 2 2 t r c) →
        fld_cross 2 2 (fun t i j => (t + i + j : ℚ)) r c = ⊤) := by
  refine ⟨rfl, by decide, ?_⟩
  have h := cross_shape_and_placement 2 2 (fun t i j => (t + i + j : ℚ))
    rfl (by decide)
  simpa using h

/-- Claim C2, amended: placing tile 2 into the cross atlas after the
270-degree counter-clockwise rotation makes destination cell
`(2nx, ny)` equal to source tile-2 cell `(ny-1, 0)`; on the small matrix
`[[1,2],[3,4]]` the 270-degree counter-clockwise rotation yields
`[[3,1],[4,2]]` (not `[[2,4],[1,3]]`, which is the 90-degree rotation). -/
theorem cross_tile2_rotation (nx ny : ℕ) (fld : ℕ → ℕ → ℕ → ℚ)
    (hsq : ny = nx) (hpos : 0 < nx) :
    fld_cross nx ny fld (2*nx) ny = ((fld 2 (ny - 1) 0 : ℚ) : WithTop ℚ) ∧
    rot90k3 2 tile2Example 0 0 = 3 ∧ rot90k3 2 tile2Example 0 1 = 1 ∧
    rot90k3 2 tile2Example 1 0 = 4 ∧ rot90k3 2 tile2Example 1 1 = 2 ∧
    rot90k1 2 tile2Example 0 0 = 2 ∧ rot90k1 2 tile2Example 0 1 = 4 ∧
    rot90k1 2 tile2Example 1 0 = 1 ∧ rot90k1 2 tile2Example 1 1 = 3 := by
  have hy : 0 < ny := hsq ▸ hpos
  refine ⟨?_, by decide, by decide, by decide, by decide,
    by decide, by decide, by decide, by decide⟩
  simp only [fld_cross, writeBlock]
  rw [if_neg (by omega), if_neg (by omega), if_neg (by omega),
    if_pos (by omega)]
  simp only [rot90k3, Nat.sub_self]
  have e : ny - 1*ny = 0 := by omega
  rw [e]
  simp [Nat.sub_zero]

/-- Witness for `cross_tile2_rotation` at `nx = ny = 2` and the field
whose value at tile `t`, cell `(i,j)` is `10*t + 2*i + j`. -/
theorem cross_tile2_rotation_witness :
    (2 : ℕ) = 2 ∧ (0 : ℕ) < 2 ∧
    (fld_cross 2 2 (fun t i j => (10*t + 2*i + j : ℚ)) (2*2) 2 =
        ((10*2 + 2*(2 - 1 : ℕ) + 0 : ℚ) : WithTop ℚ) ∧
      rot90k3 2 tile2Example 0 0 = 3 ∧ rot90k3 2 tile2Example 0 1 = 1 ∧
      rot90k3 2 tile2Example 1 0 = 4 ∧ rot90k3 2 tile2Example 1 1 = 2 ∧
      rot90k1 2 tile2Example 0 0 = 2 ∧ rot90k1 2 tile2Example 0 1 = 4 ∧
      rot90k1 2 tile2Example 1 0 = 1 ∧ rot90k1 2 tile2Example 1 1 = 3) := by
  refine ⟨rfl, by decide, ?_⟩
  have h := cross_tile2_rotation 2 2 (fun t i j => (10*t + 2*i + j : ℚ))
    rfl (by decide)
  simpa using h

/-- Claim C2, counterexample: the claim's small-matrix check is false:
the 270-degree counter-clockwise rotation of `[[1,2],[3,4]]` has `3`,
not `2`, at position `(0,0)` (the claimed `[[2,4],[1,3]]` is the
90-degree rotation). -/
theorem rot270_example_counterexample :
    rot90k3 2 tile2Example 0 0 = 3 ∧ rot90k3 2 tile2Example 0 0 ≠ 2 := by
  constructor <;> decide

/-- Claim C9: the cross atlas is independent of the `average` and
`threshold` parameters: any two settings produce the identical atlas
(the cross branch of the script reads neither argument; they matter only
in the polygon branch). -/
theorem cross_independent_of_average_threshold
    (nx ny : ℕ) (a₁ a₂ : ℕ) (t₁ t₂ : ℚ) (fld : ℕ → ℕ → ℕ → ℚ) :
    buildCross nx ny a₁ t₁ fld = buildCross nx ny a₂ t₂ fld := rfl

/-- Claim C1, code evaluated at the failing input: the reduction step
does not compute the block mean: the inner loop indexes the row with
`ixa` (the loop variable `iya` is unused), so on the block `[[0,1],[0,0]]`
with `average = 2` the code attaches `0` while the arithmetic mean of
the 4 cells is `1/4`; on the spec's own example `[[1,2],[3,4]]` both
give `5/2`, because there the diagonal mean happens to equal the block
mean. -/
theorem block_average_diagonal_bug :
    cellValue bugBlock 2 0 0 = 0 ∧
    blockMeanSpec bugBlock 2 0 0 = 1/4 ∧
    cellValue bugBlock 2 0 0 ≠ blockMeanSpec bugBlock 2 0 0 ∧
    cellValue tile2Example 2 0 0 = 5/2 ∧
    blockMeanSpec tile2Example 2 0 0 = 5/2 := by
  refine ⟨?_, ?_, ?_, ?_, ?_⟩ <;>
    norm_num [cellValue, blockMeanSpec, bugBlock, tile2Example,
      List.range_succ, Finset.sum_range_succ]

/-- With average = 1, `cellValue` is the original field value. -/
theorem cellValue_one (g : ℕ → ℕ → ℚ) (iy ix : ℕ) :
    cellValue g 1 iy ix = g iy ix := by
  norm_num [cellValue, List.range_succ]

/-- Every polygon in `buildPolygons` arises from a tile index, two block
starts and a passed threshold test, and is the corresponding `polyOf`. -/
theorem eq_polyOf_of_mem {ny nx a : ℕ} {θ : ℚ}
    {fld vlons vlats : ℕ → ℕ → ℕ → ℚ} {p : Polygon}
    (hp : p ∈ buildPolygons ny nx a θ fld vlons vlats) :
    ∃ it ∈ List.range ntile, ∃ iy ∈ blockStarts ny a,
      ∃ ix ∈ blockStarts nx a,
        θ ≤ |cellValue (fld it) a iy ix| ∧
        p = polyOf vlons vlats a (cellValue (fld it) a iy ix) it iy ix := by
  simp only [buildPolygons, List.mem_flatMap, List.mem_filterMap] at hp
  obtain ⟨it, hit, iy, hiy, ix, hix, hsome⟩ := hp
  refine ⟨it, hit, iy, hiy, ix, hix, ?_⟩
  by_cases h : θ ≤ |cellValue (fld it) a iy ix|
  · rw [if_pos h] at hsome
    exact ⟨h, (Option.some.inj hsome).symm⟩
  · rw [if_neg h] at hsome
    cases hsome

/-- Claim C8: reducing with `average = 1` returns the field unchanged:
every emitted polygon's value equals the original field value at its
cell, and the reduction of any field with `average = 1` is the identity
on each cell. -/
theorem reduce_average_one_identity (ny nx : ℕ) (θ : ℚ)
    (fld vlons vlats : ℕ → ℕ → ℕ → ℚ) (p : Polygon)
    (hp : p ∈ buildPolygons ny nx 1 θ fld vlons vlats) :
    p.value = fld p.tile p.iy p.ix ∧
    ∀ (g : ℕ → ℕ → ℚ) (iy ix : ℕ), cellValue g 1 iy ix = g iy ix := by
  refine ⟨?_, cellValue_one⟩
  obtain ⟨it, _, iy, _, ix, _, _, hpe⟩ := eq_polyOf_of_mem hp
  subst hpe
  simp [polyOf, cellValue_one]

/-- Witness for `reduce_average_one_identity` on the all-zero field with
`ny = nx = 1`, `average = 1`, `threshold = 0`. -/
theorem reduce_average_one_identity_witness :
    (polyOf zeroField zeroField 1 (cellValue (zeroField 0) 1 0 0) 0 0 0) ∈
        buildPolygons 1 1 1 0 zeroField zeroField zeroField ∧
      ((polyOf zeroField zeroField 1 (cellValue (zeroField 0) 1 0 0) 0 0 0).value
          = zeroField
              (polyOf zeroField zeroField 1 (cellValue (zeroField 0) 1 0 0) 0 0 0).tile
              (polyOf zeroField zeroField 1 (cellValue (zeroField 0) 1 0 0) 0 0 0).iy
              (polyOf zeroField zeroField 1 (cellValue (zeroField 0) 1 0 0) 0 0 0).ix ∧
        ∀ (g : ℕ → ℕ → ℚ) (iy ix : ℕ), cellValue g 1 iy ix = g iy ix) := by
  have hmem : (polyOf zeroField zeroField 1 (cellValue (zeroField 0) 1 0 0) 0 0 0) ∈
      buildPolygons 1 1 1 0 zeroField zeroField zeroField := by
    simp only [buildPolygons, List.mem_flatMap, List.mem_filterMap]
    exact ⟨0, by decide, 0, by decide, 0, by decide, by rw [if_pos (abs_nonneg _)]⟩
  exact ⟨hmem, reduce_average_one_identity 1 1 0 zeroField zeroField zeroField _ hmem⟩

/-- A fold whose step sends `none` to `none` stays at `none`. -/
theorem foldl_step_none {α : Type} (step : Option ℚ → α → Option ℚ)
    (hstep : ∀ x, step none x = none) (l : List α) :
    l.foldl step none = none := by
  induction l with
  | nil => rfl
  | cons y t ih => rw [List.foldl_cons, hstep]; exact ih

/-- The step `innerStep` sends an already-failed accumulator to `none`. -/
theorem innerStep_none (ny nx : ℕ) (fld : ℕ → ℕ → ℚ) (iy ix : ℕ) (x : ℕ) :
    innerStep ny nx fld iy ix none x = none := rfl

/-- If some offset of the inner loop reads out of bounds, the inner
accumulation fails from any starting accumulator. -/
theorem inner_foldl_eq_none (ny nx : ℕ) (fld : ℕ → ℕ → ℚ) (iy ix : ℕ)
    (l : List ℕ) (h : ∃ x ∈ l, readCell ny nx fld (iy + x) (ix + x) = none) :
    ∀ acc, l.foldl (innerStep ny nx fld iy ix) acc = none := by
  induction l with
  | nil => simp at h
  | cons y t ih =>
    intro acc
    rw [List.foldl_cons]
    by_cases hy : readCell ny nx fld (iy + y) (ix + y) = none
    · have hstep : innerStep ny nx fld iy ix acc y = none := by
        cases acc with
        | none => rfl
        | some s => simp [innerStep, hy]
      rw [hstep]
      exact foldl_step_none _ (innerStep_none ny nx fld iy ix) t
    · obtain ⟨x, hx, hxr⟩ := h
      rcases List.mem_cons.mp hx with rfl | hxt
      · exact absurd hxr hy
      · exact ih ⟨x, hxt, hxr⟩ _

/-- Claim C3, amended: when `average > 1` does not evenly divide the
tile edge length `ny`, divisibility is indeed an unchecked precondition,
but the final averaging block indexes past the array bounds and the
bounds-checked read fails (numpy raises `IndexError`, modelled as
`none`): the loop fails rather than silently reading past the block and
producing a value. -/
theorem nondividing_average_fails (ny a : ℕ) (fld : ℕ → ℕ → ℚ)
    (ha : 1 < a) (hy : 0 < ny) (hnd : ¬ a ∣ ny) :
    a * ((ny - 1) / a) ∈ blockStarts ny a ∧
    cellValueChecked ny ny fld a (a * ((ny - 1) / a)) (a * ((ny - 1) / a))
      = none := by
  have ha0 : 0 < a := by omega
  have hdm := Nat.div_add_mod (ny - 1) a
  have hr : (ny - 1) % a < a := Nat.mod_lt _ ha0
  constructor
  · rw [blockStarts, List.mem_range']
    refine ⟨(ny - 1) / a, ?_, by omega⟩
    have he : ny + a - 1 = (ny - 1) + a := by omega
    rw [he, Nat.add_div_right _ ha0]
    omega
  · obtain ⟨k, rfl⟩ : ∃ k, a = k + 1 := ⟨a - 1, by omega⟩
    have hoob : ny ≤ (k+1) * ((ny - 1) / (k+1)) + k := by
      rcases Nat.lt_or_ge ((ny - 1) % (k+1)) k with hlt | hge
      · omega
      · exfalso
        exact hnd ⟨(ny - 1) / (k+1) + 1, by rw [Nat.mul_succ]; omega⟩
    have hread : readCell ny ny fld
        ((k+1) * ((ny - 1) / (k+1)) + k) ((k+1) * ((ny - 1) / (k+1)) + k)
        = none := by
      rw [readCell, if_neg (by omega)]
    have hnone := inner_foldl_eq_none ny ny fld
      ((k+1) * ((ny - 1) / (k+1))) ((k+1) * ((ny - 1) / (k+1)))
      (List.range k ++ [k]) ⟨k, by simp, hread⟩
    rw [cellValueChecked, List.range_succ, List.foldl_append,
      List.foldl_cons, List.foldl_nil, hnone]
    rfl

/-- Witness for `nondividing_average_fails` at `ny = 3`, `average = 2`:
the last block starts at `iy = 2` and the checked reduction fails. -/
theorem nondividing_average_fails_witness :
    (1 < 2 ∧ 0 < 3 ∧ ¬ (2 ∣ 3)) ∧
      2 * ((3 - 1) / 2) ∈ blockStarts 3 2 ∧
      cellValueChecked 3 3 (fun _ _ => (0 : ℚ)) 2
        (2 * ((3 - 1) / 2)) (2 * ((3 - 1) / 2)) = none :=
  ⟨⟨by decide, by decide, by decide⟩,
    nondividing_average_fails 3 2 (fun _ _ => (0 : ℚ))
      (by decide) (by decide) (by decide)⟩

/-- Claim C3, counterexample: at `ny = nx = 3`, `average = 2` (which
does not divide 3), tile block start `(2, 2)`: the block read does not
produce a value past the intended block — it fails (`none`), refuting
the claim that the logic silently reads past the block and produces
output. -/
theorem oob_block_counterexample :
    (1 < 2 ∧ 0 < 3 ∧ ¬ (2 ∣ 3)) ∧ 2 ∈ blockStarts 3 2 ∧
      ¬ (∃ v, cellValueChecked 3 3 (fun _ _ => (0 : ℚ)) 2 2 2 = some v) := by
  refine ⟨⟨by decide, by decide, by decide⟩, by decide, ?_⟩
  have hread : readCell 3 3 (fun _ _ => (0 : ℚ)) (2 + 1) (2 + 1) = none := by
    rw [readCell, if_neg (by omega)]
  have hnone := inner_foldl_eq_none 3 3 (fun _ _ => (0 : ℚ)) 2 2
    (List.range 1 ++ [1]) ⟨1, by simp, hread⟩
  have hrw : List.range 2 = List.range 1 ++ [1] := by decide
  rintro ⟨v, hv⟩
  rw [cellValueChecked, hrw, List.foldl_append,
    List.foldl_cons, List.foldl_nil, hnone] at hv
  cases hv

/-- A `foldl max` is an upper bound of its seed and of every element. -/
theorem foldl_max_bounds (l : List ℚ) :
    ∀ x, x ≤ l.foldl max x ∧ ∀ y ∈ l, y ≤ l.foldl max x := by
  induction l with
  | nil => intro x; exact ⟨le_refl x, by simp⟩
  | cons a t ih =>
    intro x
    rw [List.foldl_cons]
    refine ⟨le_trans (le_max_left x a) (ih (max x a)).1, ?_⟩
    intro y hy
    rcases List.mem_cons.mp hy with rfl | hyt
    · exact le_trans (le_max_right x y) (ih (max x y)).1
    · exact (ih (max x a)).2 y hyt

/-- A `foldl max` equals its seed or one of the elements. -/
theorem foldl_max_attained (l : List ℚ) :
    ∀ x, l.foldl max x = x ∨ l.foldl max x ∈ l := by
  induction l with
  | nil => intro x; exact Or.inl rfl
  | cons a t ih =>
    intro x
    rw [List.foldl_cons]
    rcases ih (max x a) with h | h
    · rcases max_choice x a with hc | hc
      · exact Or.inl (h.trans hc)
      · exact Or.inr (by rw [h, hc]; exact List.mem_cons_self a t)
    · exact Or.inr (List.mem_cons_of_mem a h)

/-- A `foldl min` is a lower bound of its seed and of every element. -/
theorem foldl_min_bounds (l : List ℚ) :
    ∀ x, l.foldl min x ≤ x ∧ ∀ y ∈ l, l.foldl min x ≤ y := by
  induction l with
  | nil => intro x; exact ⟨le_refl x, by simp⟩
  | cons a t ih =>
    intro x
    rw [List.foldl_cons]
    refine ⟨le_trans (ih (min x a)).1 (min_le_left x a), ?_⟩
    intro y hy
    rcases List.mem_cons.mp hy with rfl | hyt
    · exact le_trans (ih (min x y)).1 (min_le_right x y)
    · exact (ih (min x a)).2 y hyt

/-- A `foldl min` equals its seed or one of the elements. -/
theorem foldl_min_attained (l : List ℚ) :
    ∀ x, l.foldl min x = x ∨ l.foldl min x ∈ l := by
  induction l with
  | nil => intro x; exact Or.inl rfl
  | cons a t ih =>
    intro x
    rw [List.foldl_cons]
    rcases ih (min x a) with h | h
    · rcases min_choice x a with hc | hc
      · exact Or.inl (h.trans hc)
      · exact Or.inr (by rw [h, hc]; exact List.mem_cons_self a t)
    · exact Or.inr (List.mem_cons_of_mem a h)

/-- The value `npMax l` bounds every element of the list. -/
theorem le_npMax (l : List ℚ) (y : ℚ) (hy : y ∈ l) : y ≤ npMax l := by
  cases l with
  | nil => cases hy
  | cons x xs =>
    rcases List.mem_cons.mp hy with rfl | h
    · exact (foldl_max_bounds xs y).1
    · exact (foldl_max_bounds xs x).2 y h

/-- The value `npMax` of a non-empty list is one of its elements. -/
theorem npMax_mem (l : List ℚ) (h : l ≠ []) : npMax l ∈ l := by
  cases l with
  | nil => exact absurd rfl h
  | cons x xs =>
    show xs.foldl max x ∈ x :: xs
    rcases foldl_max_attained xs x with h' | h'
    · rw [h']; exact List.mem_cons_self x xs
    · exact List.mem_cons_of_mem x h'

/-- The value `npMin l` is below every element of the list. -/
theorem npMin_le (l : List ℚ) (y : ℚ) (hy : y ∈ l) : npMin l ≤ y := by
  cases l with
  | nil => cases hy
  | cons x xs =>
    rcases List.mem_cons.mp hy with rfl | h
    · exact (foldl_min_bounds xs y).1
    · exact (foldl_min_bounds xs x).2 y h

/-- The value `npMin` of a non-empty list is one of its elements. -/
theorem npMin_mem (l : List ℚ) (h : l ≠ []) : npMin l ∈ l := by
  cases l with
  | nil => exact absurd rfl h
  | cons x xs =>
    show xs.foldl min x ∈ x :: xs
    rcases foldl_min_attained xs x with h' | h'
    · rw [h']; exact List.mem_cons_self x xs
    · exact List.mem_cons_of_mem x h'

/-- Membership in the flattened value list is exactly being some cell
value of the field. -/
theorem mem_fieldVals (ny nx : ℕ) (fld : ℕ → ℕ → ℕ → ℚ) (v : ℚ) :
    v ∈ fieldVals ny nx fld ↔
      ∃ t < ntile, ∃ i < ny, ∃ j < nx, fld t i j = v := by
  simp [fieldVals, List.mem_flatMap, List.mem_map, List.mem_range]

/-- The flattened value list of a field with positive dimensions is
non-empty. -/
theorem fieldVals_ne_nil (ny nx : ℕ) (fld : ℕ → ℕ → ℕ → ℚ)
    (hy : 0 < ny) (hx : 0 < nx) : fieldVals ny nx fld ≠ [] := by
  have hv : fld 0 0 0 ∈ fieldVals ny nx fld :=
    (mem_fieldVals ny nx fld _).mpr ⟨0, by decide, 0, hy, 0, hx, rfl⟩
  intro h
  rw [h] at hv
  cases hv

/-- Claim C7: compute_range with `centered = true` returns `(-m, m)`
where `m` bounds `|fld t i j|` over all cells and is attained at some
cell; with `centered = false` it returns `(min, max)` of the field:
both components bound every cell value and are attained. -/
theorem compute_range_correct (ny nx : ℕ) (fld : ℕ → ℕ → ℕ → ℚ)
    (hy : 0 < ny) (hx : 0 < nx) :
    ((computeRange true (fieldVals ny nx fld)).1
        = -(computeRange true (fieldVals ny nx fld)).2 ∧
      (∀ t < ntile, ∀ i < ny, ∀ j < nx,
        |fld t i j| ≤ (computeRange true (fieldVals ny nx fld)).2) ∧
      (∃ t < ntile, ∃ i < ny, ∃ j < nx,
        |fld t i j| = (computeRange true (fieldVals ny nx fld)).2)) ∧
    ((∀ t < ntile, ∀ i < ny, ∀ j < nx,
        (computeRange false (fieldVals ny nx fld)).1 ≤ fld t i j ∧
          fld t i j ≤ (computeRange false (fieldVals ny nx fld)).2) ∧
      (∃ t < ntile, ∃ i < ny, ∃ j < nx,
        fld t i j = (computeRange false (fieldVals ny nx fld)).1) ∧
      (∃ t < ntile, ∃ i < ny, ∃ j < nx,
        fld t i j = (computeRange false (fieldVals ny nx fld)).2)) := by
  have hne : fieldVals ny nx fld ≠ [] := fieldVals_ne_nil ny nx fld hy hx
  constructor
  · refine ⟨by simp [computeRange], ?_, ?_⟩
    · intro t ht i hi j hj
      have hv : fld t i j ∈ fieldVals ny nx fld :=
        (mem_fieldVals ny nx fld _).mpr ⟨t, ht, i, hi, j, hj, rfl⟩
      have hm : |fld t i j| ∈ (fieldVals ny nx fld).map (fun v => |v|) :=
        List.mem_map_of_mem _ hv
      simpa [computeRange] using le_npMax _ _ hm
    · have hne' : (fieldVals ny nx fld).map (fun v => |v|) ≠ [] := by
        intro h
        exact hne (List.map_eq_nil_iff.mp h)
      obtain ⟨v, hv, hveq⟩ := List.mem_map.mp (npMax_mem _ hne')
      obtain ⟨t, ht, i, hi, j, hj, hfe⟩ := (mem_fieldVals ny nx fld _).mp hv
      refine ⟨t, ht, i, hi, j, hj, ?_⟩
      simp only [computeRange, if_pos]
      rw [hfe]
      exact hveq
  · refine ⟨?_, ?_, ?_⟩
    · intro t ht i hi j hj
      have hv : fld t i j ∈ fieldVals ny nx fld :=
        (mem_fieldVals ny nx fld _).mpr ⟨t, ht, i, hi, j, hj, rfl⟩
      exact ⟨by simpa [computeRange] using npMin_le _ _ hv,
        by simpa [computeRange] using le_npMax _ _ hv⟩
    · obtain ⟨t, ht, i, hi, j, hj, hfe⟩ :=
        (mem_fieldVals ny nx fld _).mp (npMin_mem _ hne)
      exact ⟨t, ht, i, hi, j, hj, by simp [computeRange, hfe]⟩
    · obtain ⟨t, ht, i, hi, j, hj, hfe⟩ :=
        (mem_fieldVals ny nx fld _).mp (npMax_mem _ hne)
      exact ⟨t, ht, i, hi, j, hj, by simp [computeRange, hfe]⟩

/-- Witness for `compute_range_correct` at `ny = nx = 1` and the field
whose value at tile `t` is `t`. -/
theorem compute_range_correct_witness :
    (0 : ℕ) < 1 ∧ (0 : ℕ) < 1 ∧
    (((computeRange true (fieldVals 1 1 (fun t _ _ => (t : ℚ)))).1
        = -(computeRange true (fieldVals 1 1 (fun t _ _ => (t : ℚ)))).2 ∧
      (∀ t < ntile, ∀ i < 1, ∀ j < 1,
        |((t : ℚ))| ≤ (computeRange true (fieldVals 1 1 (fun t _ _ => (t : ℚ)))).2) ∧
      (∃ t < ntile, ∃ i < 1, ∃ j < 1,
        |((t : ℚ))| = (computeRange true (fieldVals 1 1 (fun t _ _ => (t : ℚ)))).2)) ∧
    ((∀ t < ntile, ∀ i < 1, ∀ j < 1,
        (computeRange false (fieldVals 1 1 (fun t _ _ => (t : ℚ)))).1 ≤ (t : ℚ) ∧
          (t : ℚ) ≤ (computeRange false (fieldVals 1 1 (fun t _ _ => (t : ℚ)))).2) ∧
      (∃ t < ntile, ∃ i < 1, ∃ j < 1,
        (t : ℚ) = (computeRange false (fieldVals 1 1 (fun t _ _ => (t : ℚ)))).1) ∧
      (∃ t < ntile, ∃ i < 1, ∃ j < 1,
        (t : ℚ) = (computeRange false (fieldVals 1 1 (fun t _ _ => (t : ℚ)))).2))) :=
  ⟨by decide, by decide,
    compute_range_correct 1 1 (fun t _ _ => (t : ℚ)) (by decide) (by decide)⟩

/-- The tile-read loop fails exactly when some already-processed tile's
slice does not broadcast to the target shape. -/
theorem assembleUpTo_none (ny nx : ℕ) (src : ℕ → Slice) :
    ∀ n, assembleUpTo ny nx src n = none ↔
      ∃ t < n, ¬ compatSlice ny nx (src t) := by
  intro n
  induction n with
  | zero => simp [assembleUpTo]
  | succ k ih =>
    constructor
    · intro h
      rw [assembleUpTo] at h
      cases hk : assembleUpTo ny nx src k with
      | none =>
        obtain ⟨t, ht, hc⟩ := ih.mp hk
        exact ⟨t, Nat.lt_succ_of_lt ht, hc⟩
      | some fld =>
        rw [hk] at h
        cases hak : assignTile ny nx (src k) with
        | none =>
          refine ⟨k, Nat.lt_succ_self k, fun hc => ?_⟩
          rw [assignTile, if_pos hc] at hak
          cases hak
        | some d =>
          rw [hak] at h
          simp at h
    · rintro ⟨t, ht, hc⟩
      rw [assembleUpTo]
      rcases Nat.lt_or_ge t k with hlt | hge
      · rw [ih.mpr ⟨t, hlt, hc⟩]
        rfl
      · have : t = k := by omega
        subst this
        cases hk : assembleUpTo ny nx src t with
        | none => rfl
        | some fld =>
          rw [assignTile, if_neg hc]
          rfl

/-- The baseline loop fails exactly when some already-processed baseline
slice does not broadcast to the target shape. -/
theorem applyBaseUpTo_none (ny nx : ℕ) (bsrc : ℕ → Slice)
    (fld0 : ℕ → ℕ → ℕ → ℚ) :
    ∀ n, applyBaseUpTo ny nx bsrc fld0 n = none ↔
      ∃ t < n, ¬ compatSlice ny nx (bsrc t) := by
  intro n
  induction n with
  | zero => simp [applyBaseUpTo]
  | succ k ih =>
    constructor
    · intro h
      rw [applyBaseUpTo] at h
      cases hk : applyBaseUpTo ny nx bsrc fld0 k with
      | none =>
        obtain ⟨t, ht, hc⟩ := ih.mp hk
        exact ⟨t, Nat.lt_succ_of_lt ht, hc⟩
      | some fld =>
        rw [hk, Option.some_bind] at h
        cases hak : subTile ny nx (fld k) (bsrc k) with
        | none =>
          refine ⟨k, Nat.lt_succ_self k, fun hc => ?_⟩
          rw [subTile, if_pos hc] at hak
          cases hak
        | some d =>
          rw [hak] at h
          simp at h
    · rintro ⟨t, ht, hc⟩
      rw [applyBaseUpTo]
      rcases Nat.lt_or_ge t k with hlt | hge
      · rw [ih.mpr ⟨t, hlt, hc⟩]
        rfl
      · have : t = k := by omega
        subst this
        cases hk : applyBaseUpTo ny nx bsrc fld0 t with
        | none => rfl
        | some fld =>
          simp only [Option.some_bind]
          rw [subTile, if_neg hc]
          rfl

/-- Claim C4, amended: per-tile assembly fails exactly when some tile's
slice shape is not numpy-broadcast-compatible with the first tile's
shape (a differing shape that broadcasts, e.g. `(1, nx)`, is silently
accepted), and assembly with a baseline additionally fails exactly when
some baseline slice is not broadcast-compatible with that shape; on
failure no field is produced (`none`). -/
theorem assembly_failure_characterization (src bsrc : ℕ → Slice) :
    (assemble src = none ↔
      ∃ t < ntile, ¬ compatSlice (src 0).rows (src 0).cols (src t)) ∧
    (assembleWithBase src bsrc = none ↔
      (∃ t < ntile, ¬ compatSlice (src 0).rows (src 0).cols (src t)) ∨
      (∃ t < ntile, ¬ compatSlice (src 0).rows (src 0).cols (bsrc t))) := by
  constructor
  · exact assembleUpTo_none (src 0).rows (src 0).cols src ntile
  · rw [assembleWithBase]
    cases ha : assemble src with
    | none =>
      simp only [Option.none_bind]
      constructor
      · intro _
        exact Or.inl
          ((assembleUpTo_none (src 0).rows (src 0).cols src ntile).mp ha)
      · intro _
        trivial
    | some fld =>
      have hnot : ¬ ∃ t < ntile,
          ¬ compatSlice (src 0).rows (src 0).cols (src t) := by
        intro hex
        have hfail :=
          (assembleUpTo_none (src 0).rows (src 0).cols src ntile).mpr hex
        rw [assemble, hfail] at ha
        cases ha
      simp only [Option.some_bind]
      rw [applyBaseUpTo_none (src 0).rows (src 0).cols bsrc fld ntile]
      constructor
      · exact Or.inr
      · rintro (h | h)
        · exact absurd h hnot
        · exact h

/-- Claim C4, counterexample: tile 1's slice has shape `(1, 2)`, tile
0's has `(2, 2)`: the shapes differ, yet assembly succeeds (numpy
broadcasts the `(1, 2)` slice over the `(2, 2)` target), refuting
"fails whenever any tile's slice shape differs from the first
tile's". -/
theorem shape_mismatch_counterexample :
    (mismatchSrc 1).rows ≠ (mismatchSrc 0).rows ∧
      (assemble mismatchSrc).isSome = true := by
  constructor
  · decide
  · rfl

/-- Filtering a `flatMap` over a duplicate-free index list in which only
index `k` can contribute matching elements reduces to filtering `k`'s
contribution. -/
theorem filter_flatMap_single {β : Type} (l : List ℕ) (g : ℕ → List β)
    (p : β → Bool) (k : ℕ) (hnd : l.Nodup) (hk : k ∈ l)
    (hother : ∀ x ∈ l, x ≠ k → (g x).filter p = []) :
    (l.flatMap g).filter p = (g k).filter p := by
  induction l with
  | nil => cases hk
  | cons a t ih =>
    rw [List.flatMap_cons, List.filter_append]
    rcases List.mem_cons.mp hk with rfl | hkt
    · have htail : (t.flatMap g).filter p = [] := by
        rw [List.filter_eq_nil_iff]
        intro b hb
        obtain ⟨x, hx, hbx⟩ := List.mem_flatMap.mp hb
        have hxk : x ≠ k := by
          intro he
          exact (List.nodup_cons.mp hnd).1 (he ▸ hx)
        have hgx := hother x (List.mem_cons_of_mem k hx) hxk
        rw [List.filter_eq_nil_iff] at hgx
        exact hgx b hbx
      rw [htail, List.append_nil]
    · have hak : a ≠ k := by
        intro he
        exact (List.nodup_cons.mp hnd).1 (he ▸ hkt)
      rw [hother a (List.mem_cons_self a t) hak, List.nil_append]
      exact ih (List.nodup_cons.mp hnd).2 hkt
        (fun x hx hxk => hother x (List.mem_cons_of_mem a hx) hxk)

/-- Filtering a `filterMap` over a duplicate-free index list in which
only index `k` can produce a matching element reduces to filtering
`k`'s (optional) element. -/
theorem filter_filterMap_single {β : Type} (l : List ℕ) (h : ℕ → Option β)
    (p : β → Bool) (k : ℕ) (hnd : l.Nodup) (hk : k ∈ l)
    (hother : ∀ x ∈ l, x ≠ k → ∀ b, h x = some b → p b = false) :
    (l.filterMap h).filter p = ((h k).toList).filter p := by
  induction l with
  | nil => cases hk
  | cons a t ih =>
    rcases List.mem_cons.mp hk with rfl | hkt
    · have htail : (t.filterMap h).filter p = [] := by
        rw [List.filter_eq_nil_iff]
        intro b hb
        obtain ⟨x, hx, hbx⟩ := List.mem_filterMap.mp hb
        have hxk : x ≠ k := by
          intro he
          exact (List.nodup_cons.mp hnd).1 (he ▸ hx)
        simp [hother x (List.mem_cons_of_mem k hx) hxk b hbx]
      cases hak : h k with
      | none =>
        rw [List.filterMap_cons_none hak, htail]
        rfl
      | some b =>
        rw [List.filterMap_cons_some hak, List.filter_cons, htail]
        cases hpb : p b <;> simp [Option.toList, List.filter_cons, hpb]
    · have hne : a ≠ k := by
        intro he
        exact (List.nodup_cons.mp hnd).1 (he ▸ hkt)
      have ih' := ih (List.nodup_cons.mp hnd).2 hkt
        (fun x hx hxk => hother x (List.mem_cons_of_mem a hx) hxk)
      cases hak : h a with
      | none => rw [List.filterMap_cons_none hak, ih']
      | some b =>
        have hpb : p b = false :=
          hother a (List.mem_cons_self a t) hne b hak
        rw [List.filterMap_cons_some hak, List.filter_cons, hpb, ih']
        simp

/-- A block-start list has no duplicates (step `average ≥ 1`). -/
theorem blockStarts_nodup (n a : ℕ) (ha : 1 ≤ a) :
    (blockStarts n a).Nodup :=
  List.nodup_range' 0 ((n + a - 1) / a) a (by omega)

/-- Claim C6: in the polygon path with threshold `θ`, for every tile and
every averaged cell: a cell whose value satisfies `|value| < θ` never
appears in the output, and a cell with `|value| ≥ θ` appears exactly
once, tagged with its value and the four vertex-grid corners `(iy,ix)`,
`(iy,ix+a)`, `(iy+a,ix+a)`, `(iy+a,ix)` in that winding order. -/
theorem polygon_emission (ny nx a : ℕ) (θ : ℚ)
    (fld vlons vlats : ℕ → ℕ → ℕ → ℚ) (tile iy ix : ℕ)
    (ha : 1 ≤ a) (htile : tile < ntile)
    (hiy : iy ∈ blockStarts ny a) (hix : ix ∈ blockStarts nx a) :
    (buildPolygons ny nx a θ fld vlons vlats).filter
        (fun q => q.tile == tile && q.iy == iy && q.ix == ix)
      = if θ ≤ |cellValue (fld tile) a iy ix| then
          [polyOf vlons vlats a (cellValue (fld tile) a iy ix) tile iy ix]
        else [] := by
  rw [buildPolygons]
  rw [filter_flatMap_single _ _ _ tile (List.nodup_range ntile)
    (List.mem_range.mpr htile) ?_]
  · rw [filter_flatMap_single _ _ _ iy (blockStarts_nodup ny a ha) hiy ?_]
    · rw [filter_filterMap_single _ _ _ ix (blockStarts_nodup nx a ha) hix ?_]
      · by_cases hc : θ ≤ |cellValue (fld tile) a iy ix|
        · rw [if_pos hc, if_pos hc]
          simp [Option.toList, List.filter_cons, polyOf]
        · rw [if_neg hc, if_neg hc]
          rfl
      · intro x _ hxk b hb
        by_cases hc : θ ≤ |cellValue (fld tile) a iy x|
        · rw [if_pos hc] at hb
          cases Option.some.inj hb
          simp [polyOf, hxk]
        · rw [if_neg hc] at hb
          cases hb
    · intro y _ hyk
      rw [List.filter_eq_nil_iff]
      intro b hb
      obtain ⟨x, _, hbx⟩ := List.mem_filterMap.mp hb
      by_cases hc : θ ≤ |cellValue (fld tile) a y x|
      · rw [if_pos hc] at hbx
        cases Option.some.inj hbx
        simp [polyOf, hyk]
      · rw [if_neg hc] at hbx
        cases hbx
  · intro it _ hitk
    rw [List.filter_eq_nil_iff]
    intro b hb
    obtain ⟨y, _, hb2⟩ := List.mem_flatMap.mp hb
    obtain ⟨x, _, hbx⟩ := List.mem_filterMap.mp hb2
    by_cases hc : θ ≤ |cellValue (fld it) a y x|
    · rw [if_pos hc] at hbx
      cases Option.some.inj hbx
      simp [polyOf, hitk]
    · rw [if_neg hc] at hbx
      cases hbx

/-- Witness for `polygon_emission` at `ny = nx = 2`, `average = 2`,
`threshold = 0`, tile 3, block start `(0, 0)`, on the all-zero field. -/
theorem polygon_emission_witness :
    ((1 : ℕ) ≤ 2 ∧ (3 : ℕ) < ntile ∧
      0 ∈ blockStarts 2 2 ∧ 0 ∈ blockStarts 2 2) ∧
    (buildPolygons 2 2 2 0 zeroField zeroField zeroField).filter
        (fun q => q.tile == 3 && q.iy == 0 && q.ix == 0)
      = if (0 : ℚ) ≤ |cellValue (zeroField 3) 2 0 0| then
          [polyOf zeroField zeroField 2 (cellValue (zeroField 3) 2 0 0) 3 0 0]
        else [] :=
  ⟨⟨by decide, by decide, by decide, by decide⟩,
    polygon_emission 2 2 2 0 zeroField zeroField zeroField 3 0 0
      (by decide) (by decide) (by decide) (by decide)⟩

end Raster
